import Mathlib

/-!
Verification development for the NER-annotation cleaning script `clean.py`.

The script corrects misaligned character-offset annotations: each span's start
and end index is relocated to the nearest word/non-word border by an outward
expanding search (`fix_char_index`), unbalanced parentheses at the span edges
are repaired (`fix_parenthesis`), a no-leading/trailing-space assertion is
checked (`fix_borders_main`), span lists are deduplicated and canonically
ordered (`deduplicate`), and numeric label suffixes are stripped
(`remove_ner_noise`).

Texts are modelled as `List Char` (Python strings, indexed by code point).
Offsets are modelled as `Int` (Python integers are signed).  The unbounded
`while` loop of the border search is modelled with explicit fuel; theorems
establish concrete linear fuel bounds where the search terminates.

The word-character classifier of the script is the Unicode regex
`re.compile(r'[\w\d]', re.U).match`.  The development is parametric in the
classifier `wc : Char → Bool`; theorems assume only the facts of the Python
class that they need (whitespace and the characters `.`, `(`, `)` are not word
characters).  `is_char_ascii` is the exact restriction of the Python classifier
to ASCII characters and is used to instantiate witnesses on ASCII inputs.
-/

namespace Clean

/-- A NER entity span `(start, end, label)` as read from the JSON input
(`ent[0]`, `ent[1]`, `ent[2]` in `clean.py`). -/
abbrev Ent := Int × Int × String

/-- ASCII restriction of the word-character test `is_char` of `clean.py`
(Python `re.compile(r'[\w\d]', re.U).match(s)`): letters, digits, underscore. -/
def is_char_ascii (c : Char) : Bool := c.isAlphanum || c == '_'

/-- Python single-character indexing `t[i]`.  In `clean.py` every character
access is guarded so that `0 ≤ i < len(t)` holds at the access; the default
`' '` is never observable under those guards. -/
def cAt (t : List Char) (i : Int) : Char := t.getD i.toNat ' '

/-- `cAt` with a natural-number index. -/
def cAtN (t : List Char) (n : Nat) : Char := t.getD n ' '

/-- Python slice-index normalisation: negative indices count from the end,
then the index is clamped to `[0, len]`. -/
def py_idx (len : Nat) (i : Int) : Nat :=
  if i < 0 then ((len : Int) + i).toNat else min i.toNat len

/-- Python slicing `t[a:b]`. -/
def py_slice (t : List Char) (a b : Int) : List Char :=
  (t.take (py_idx t.length b)).drop (py_idx t.length a)

/-- The border predicate of `fix_char_index`: for a start index the pair
`(a, b)` is a border when `a` is a non-word character and `b` a word
character; for an end index the roles are flipped. -/
def is_border (wc : Char → Bool) (i_is_start : Bool) (a b : Char) : Bool :=
  if i_is_start then !wc a && wc b else wc a && !wc b

/-- Matcher for Python `re.match(r' *$', rest)`: only spaces up to the end of
the string (Python `$` also matches just before one final newline). -/
def spaces_then_end : List Char → Bool
  | [] => true
  | ['\n'] => true
  | ' ' :: rest => spaces_then_end rest
  | _ => false

/-- Matcher for Python `re.compile(r'^\. *$', re.U).match(s)` used by the
abbreviation-period rule of `fix_char_index`: a period followed only by
spaces up to the end of the string. -/
def dot_spaces_match : List Char → Bool
  | '.' :: rest => spaces_then_end rest
  | _ => false

/-- One iteration of the expanding search of `fix_char_index`: from state
`(i_current, i_step)` the failing branch executes `i_current += i_step`,
then increments the magnitude of `i_step` and flips its sign. -/
def stepState (st : Int × Int) : Int × Int :=
  (st.1 + st.2, (if st.2 > 0 then st.2 + 1 else st.2 - 1) * (-1))

/-- The `while not found` loop of `fix_char_index`, with explicit fuel.
`none` models non-termination within the given fuel. -/
def search_loop (wc : Char → Bool) (i_is_start : Bool) (padded : List Char) :
    Nat → Int → Int → Option Int
  | 0, _, _ => none
  | fuel + 1, i_current, i_step =>
    if 0 ≤ i_current - 1 ∧ i_current < (padded.length : Int) ∧
        is_border wc i_is_start (cAt padded (i_current - 1)) (cAt padded i_current) = true then
      some i_current
    else
      search_loop wc i_is_start padded fuel
        (stepState (i_current, i_step)).1 (stepState (i_current, i_step)).2

/-- `fix_char_index(text, i, i_is_start)` of `clean.py`: pad the text with one
space on each side, shift the index, run the expanding border search, apply
the abbreviation-period override, and undo the padding shift. -/
def fix_char_index (wc : Char → Bool) (fuel : Nat) (text : List Char) (i : Int)
    (i_is_start : Bool) : Option Int :=
  let padded := ' ' :: text ++ [' ']
  let i_step : Int := if i_is_start then -1 else 1
  match search_loop wc i_is_start padded fuel (i + 1) i_step with
  | none => none
  | some i_corrected =>
    if cAt padded i_corrected = '.' ∧
        dot_spaces_match (padded.drop i_corrected.toNat) = false then
      some (i_corrected + 1 - 1)
    else
      some (i_corrected - 1)

/-- `fix_parenthesis(ent, text)` of `clean.py`.  Note that the second
conditional assignment overwrites `ent_new`, so a right extension discards a
left extension; both conditions are computed from the original `i_a`, `i_b`
and `text_sub`. -/
def fix_parenthesis (text : List Char) (ent : Ent) : Ent :=
  let i_a := ent.1
  let i_b := ent.2.1
  let text_sub := py_slice text i_a i_b
  let ent1 : Ent :=
    if i_a > 0 ∧ cAt text (i_a - 1) = '(' ∧
        text_sub.count ')' > text_sub.count '(' then
      (i_a - 1, i_b, ent.2.2)
    else ent
  if i_b < (text.length : Int) - 1 ∧ cAt text i_b = ')' ∧
      text_sub.count '(' > text_sub.count ')' then
    (i_a, i_b + 1, ent.2.2)
  else ent1

/-- Python `sub.startswith(" ")`. -/
def starts_with_space : List Char → Bool
  | ' ' :: _ => true
  | _ => false

/-- Python `sub.endswith(" ")`. -/
def ends_with_space (l : List Char) : Bool :=
  match l.getLast? with
  | some c => c = ' '
  | none => false

/-- Fuel sufficient for `search_loop` to find a border when one exists:
linear in the text length and in the magnitude of the input index. -/
def fci_fuel (text : List Char) (i : Int) : Nat :=
  2 * (text.length + i.natAbs) + 8

/-- The body of the `for ent in ent_list` loop of `fix_borders_main`: correct
both indices, repair parentheses, and check the no-leading/trailing-space
assertion.  `none` models either non-termination of the search or an
`AssertionError`. -/
def fix_borders_one (wc : Char → Bool) (text : List Char) (ent : Ent) : Option Ent :=
  match fix_char_index wc (fci_fuel text ent.1) text ent.1 true,
      fix_char_index wc (fci_fuel text ent.2.1) text ent.2.1 false with
  | some s, some e =>
    let ent_new := fix_parenthesis text (s, e, ent.2.2)
    let sub := py_slice text ent_new.1 ent_new.2.1
    if starts_with_space sub || ends_with_space sub then none else some ent_new
  | _, _ => none

/-- Option-valued map: the whole run fails if any span fails. -/
def map_opt (f : α → Option β) : List α → Option (List β)
  | [] => some []
  | x :: xs =>
    match f x, map_opt f xs with
    | some y, some ys => some (y :: ys)
    | _, _ => none

/-- `fix_borders(ent_list, text)` of `clean.py` (via `fix_borders_main`). -/
def fix_borders (wc : Char → Bool) (ent_list : List Ent) (text : List Char) :
    Option (List Ent) :=
  map_opt (fix_borders_one wc text) ent_list

/-- The left-extension condition of `fix_parenthesis`, phrased on the
original span boundaries: a `'('` just before the span and an excess of
`')'` inside it. -/
def left_paren_cond (text : List Char) (s e : Int) : Prop :=
  s > 0 ∧ cAt text (s - 1) = '(' ∧
    (py_slice text s e).count ')' > (py_slice text s e).count '('

/-- The right-extension condition of `fix_parenthesis`, phrased on the
original span boundaries: a `')'` just after the span and an excess of
`'('` inside it. -/
def right_paren_cond (text : List Char) (s e : Int) : Prop :=
  e < (text.length : Int) - 1 ∧ cAt text e = ')' ∧
    (py_slice text s e).count '(' > (py_slice text s e).count ')'

instance : Decidable (left_paren_cond text s e) := by
  unfold left_paren_cond; infer_instance

instance : Decidable (right_paren_cond text s e) := by
  unfold right_paren_cond; infer_instance

/-- The radius-0 border test: index `i` of the unpadded text is already
exactly at a valid border for the given mode (this is the condition the very
first probe of `fix_char_index` checks, at padded position `i + 1`). -/
def valid_border (wc : Char → Bool) (text : List Char) (i : Int)
    (i_is_start : Bool) : Bool :=
  let padded := ' ' :: text ++ [' ']
  decide (0 ≤ i) && decide (i + 1 < (padded.length : Int)) &&
    is_border wc i_is_start (cAt padded i) (cAt padded (i + 1))

/-- The abbreviation-period override of `fix_char_index` fires at padded
position `p`: the located character is a period that is not sentence-final. -/
def period_override_fires (text : List Char) (p : Int) : Prop :=
  cAt (' ' :: text ++ [' ']) p = '.' ∧
    dot_spaces_match ((' ' :: text ++ [' ']).drop p.toNat) = false

instance : Decidable (period_override_fires text p) := by
  unfold period_override_fires; infer_instance

/-- Python `re.sub(r"-[0-9]*$", "", label)` on the character list of a label:
remove a trailing hyphen followed by zero or more ASCII digits.  (The regex
matches at the last `'-'` of the string when everything after it is a digit;
greedy reversal implements exactly that.) -/
def strip_label_chars (l : List Char) : List Char :=
  match l.reverse.dropWhile Char.isDigit with
  | '-' :: rest => rest.reverse
  | _ => l

/-- `remove_ner_noise(ent_list)` of `clean.py`. -/
def remove_ner_noise (ent_list : List Ent) : List Ent :=
  ent_list.map fun e => (e.1, e.2.1, String.mk (strip_label_chars e.2.2.data))

/-- Python string comparison `<` (lexicographic on code points). -/
def char_list_lt : List Char → List Char → Bool
  | _, [] => false
  | [], _ :: _ => true
  | a :: as, b :: bs => if a < b then true else if b < a then false else char_list_lt as bs

/-- Sort key `lambda x: x[2]` compared with Python `<`. -/
def label_lt (x y : Ent) : Bool := char_list_lt x.2.2.data y.2.2.data

/-- Sort key `lambda x: x[1]` compared with Python `<`. -/
def end_lt (x y : Ent) : Bool := decide (x.2.1 < y.2.1)

/-- Sort key `lambda x: x[0]` compared with Python `<`. -/
def start_lt (x y : Ent) : Bool := decide (x.1 < y.1)

/-- Stable insertion: `x` is placed before the first element strictly greater
than it, hence after all elements it ties with (Python `list.sort` is
stable). -/
def insert_lt (lt : α → α → Bool) (x : α) : List α → List α
  | [] => [x]
  | y :: ys => if lt x y then x :: y :: ys else y :: insert_lt lt x ys

/-- Stable sort by the strict comparison `lt`: elements are inserted left to
right, each going after the elements equal to it that arrived earlier. -/
def sort_lt (lt : α → α → Bool) (l : List α) : List α :=
  l.foldl (fun acc y => insert_lt lt y acc) []

/-- `deduplicate(ent_list)` of `clean.py`: collect the spans into a set, then
sort three times (by label, then end, then start; Python's sort is stable).
Python's `set` iteration order is unspecified; since the three stable sorts
impose a total order on the distinct tuples, every enumeration of the set
yields the same final list, so the set is modelled by `List.dedup` (first
occurrences). -/
def deduplicate (ent_list : List Ent) : List Ent :=
  sort_lt start_lt (sort_lt end_lt (sort_lt label_lt ent_list.dedup))

/-- The lexicographic span order claimed for `deduplicate`'s output: start
ascending, then end ascending, then label ascending. -/
def lex_le (x y : Ent) : Prop :=
  x.1 < y.1 ∨ (x.1 = y.1 ∧ (x.2.1 < y.2.1 ∨ (x.2.1 = y.2.1 ∧
    (char_list_lt x.2.2.data y.2.2.data = true ∨ x.2.2 = y.2.2))))

instance : DecidablePred fun p : Ent × Ent => lex_le p.1 p.2 := by
  intro p; unfold lex_le; infer_instance

/-- The order established by one stable sort pass with strict comparison
`lt` over a list already ordered by `S`: strictly smaller by the new key, or
tied on it (neither comparison holds) and in the previous order `S` — the
stability guarantee of Python's `list.sort`. -/
def sorted_rel (lt : α → α → Bool) (S : α → α → Prop) (a b : α) : Prop :=
  lt a b = true ∨ (lt a b = false ∧ lt b a = false ∧ S a b)

/-! ### The expanding border search: soundness and termination -/

/-- The condition checked by one probe of `search_loop` at position `c`. -/
def probe_ok (wc : Char → Bool) (i_is_start : Bool) (padded : List Char) (c : Int) : Prop :=
  0 ≤ c - 1 ∧ c < (padded.length : Int) ∧
    is_border wc i_is_start (cAt padded (c - 1)) (cAt padded c) = true

instance : Decidable (probe_ok wc st padded c) := by
  unfold probe_ok; infer_instance

theorem search_loop_succ (wc : Char → Bool) (st : Bool) (padded : List Char)
    (n : Nat) (c s : Int) :
    search_loop wc st padded (n + 1) c s =
      if probe_ok wc st padded c then some c
      else search_loop wc st padded n (stepState (c, s)).1 (stepState (c, s)).2 := rfl

theorem search_loop_sound (wc : Char → Bool) (st : Bool) (padded : List Char) :
    ∀ (n : Nat) (c s ic : Int), search_loop wc st padded n c s = some ic →
      probe_ok wc st padded ic := by
  intro n
  induction n with
  | zero => intro c s ic h; simp [search_loop] at h
  | succ n ih =>
    intro c s ic h
    rw [search_loop_succ] at h
    split at h
    · cases h; assumption
    · exact ih _ _ _ h

/-- The state of the search after `k` failed probes, started at `(c, s)`. -/
def stateAt (c s : Int) : Nat → Int × Int
  | 0 => (c, s)
  | k + 1 => stepState (stateAt c s k)

theorem stateAt_shift (c s : Int) :
    ∀ k : Nat, stateAt c s (k + 1) = stateAt (stepState (c, s)).1 (stepState (c, s)).2 k := by
  intro k
  induction k with
  | zero => rfl
  | succ k ih => show stepState (stateAt c s (k + 1)) = _; rw [ih]; rfl

theorem loop_finds (wc : Char → Bool) (st : Bool) (padded : List Char) :
    ∀ (n : Nat) (c s : Int),
      (∃ j : Nat, j < n ∧ probe_ok wc st padded (stateAt c s j).1) →
      ∃ ic, search_loop wc st padded n c s = some ic := by
  intro n
  induction n with
  | zero => intro c s ⟨j, hj, _⟩; omega
  | succ n ih =>
    intro c s ⟨j, hj, hp⟩
    rw [search_loop_succ]
    by_cases h : probe_ok wc st padded c
    · exact ⟨c, if_pos h⟩
    · rw [if_neg h]
      apply ih
      cases j with
      | zero => exact absurd hp h
      | succ j =>
        refine ⟨j, by omega, ?_⟩
        rw [← stateAt_shift]
        exact hp

/-- Closed form of the probe positions in start mode (initial step `-1`):
the probe order is `i, i-1, i+1, i-2, i+2, …`. -/
theorem stateAt_succ (c s : Int) (k : Nat) :
    stateAt c s (k + 1) = stepState (stateAt c s k) := rfl

theorem stepState_eq (c s : Int) :
    stepState (c, s) = (c + s, (if s > 0 then s + 1 else s - 1) * (-1)) := rfl

/-- Closed form of the probe positions in start mode (initial step `-1`):
the probe order is `i, i-1, i+1, i-2, i+2, …`. -/
theorem stateAt_start (i : Int) :
    ∀ m : Nat, stateAt i (-1) (2 * m + 1) = (i - ((m : Int) + 1), 2 * ((m : Int) + 1)) ∧
      stateAt i (-1) (2 * m + 2) = (i + ((m : Int) + 1), -(2 * (m : Int) + 3)) := by
  intro m
  induction m with
  | zero =>
    refine ⟨?_, ?_⟩
    · show stepState (i, -1) = _
      rw [stepState_eq]
      simp only [Prod.mk.injEq]
      norm_num
      omega
    · show stepState (stateAt i (-1) 1) = _
      rw [show stateAt i (-1) 1 = stepState (i, -1) from rfl, stepState_eq]
      norm_num
      rw [stepState_eq]
      simp only [Prod.mk.injEq]
      norm_num
      omega
  | succ m ih =>
    have e1 : stateAt i (-1) (2 * (m + 1) + 1) = stepState (stateAt i (-1) (2 * m + 2)) := by
      rw [show 2 * (m + 1) + 1 = (2 * m + 2) + 1 from by ring, stateAt_succ]
    have p1 : stateAt i (-1) (2 * (m + 1) + 1) =
        (i - (((m : Nat) + 1 : Int) + 1), 2 * (((m : Nat) + 1 : Int) + 1)) := by
      rw [e1, ih.2, stepState_eq]
      have hn : ¬ (-(2 * (m : Int) + 3) > 0) := by omega
      rw [if_neg hn]
      simp only [Prod.mk.injEq]
      constructor <;> ring
    have e2 : stateAt i (-1) (2 * (m + 1) + 2) = stepState (stateAt i (-1) (2 * (m + 1) + 1)) := by
      rw [show 2 * (m + 1) + 2 = (2 * (m + 1) + 1) + 1 from by ring, stateAt_succ]
    refine ⟨by rw [p1]; simp only [Prod.mk.injEq]; constructor <;> (push_cast; ring), ?_⟩
    rw [e2, p1, stepState_eq]
    have hp : (2 * (((m : Nat) + 1 : Int) + 1) > 0) := by omega
    rw [if_pos hp]
    simp only [Prod.mk.injEq]
    constructor <;> (push_cast; ring)

/-- Closed form of the probe positions in end mode (initial step `+1`):
the probe order is `i, i+1, i-1, i+2, i-2, …`. -/
theorem stateAt_end (i : Int) :
    ∀ m : Nat, stateAt i 1 (2 * m + 1) = (i + ((m : Int) + 1), -(2 * ((m : Int) + 1))) ∧
      stateAt i 1 (2 * m + 2) = (i - ((m : Int) + 1), 2 * (m : Int) + 3) := by
  intro m
  induction m with
  | zero =>
    refine ⟨?_, ?_⟩
    · show stepState (i, 1) = _
      rw [stepState_eq]
      simp only [Prod.mk.injEq]
      norm_num
    · show stepState (stateAt i 1 1) = _
      rw [show stateAt i 1 1 = stepState (i, 1) from rfl, stepState_eq]
      norm_num
      rw [stepState_eq]
      simp only [Prod.mk.injEq]
      norm_num
      omega
  | succ m ih =>
    have e1 : stateAt i 1 (2 * (m + 1) + 1) = stepState (stateAt i 1 (2 * m + 2)) := by
      rw [show 2 * (m + 1) + 1 = (2 * m + 2) + 1 from by ring, stateAt_succ]
    have p1 : stateAt i 1 (2 * (m + 1) + 1) =
        (i + (((m : Nat) + 1 : Int) + 1), -(2 * (((m : Nat) + 1 : Int) + 1))) := by
      rw [e1, ih.2, stepState_eq]
      have hp : (2 * (m : Int) + 3 > 0) := by omega
      rw [if_pos hp]
      simp only [Prod.mk.injEq]
      constructor <;> ring
    have e2 : stateAt i 1 (2 * (m + 1) + 2) = stepState (stateAt i 1 (2 * (m + 1) + 1)) := by
      rw [show 2 * (m + 1) + 2 = (2 * (m + 1) + 1) + 1 from by ring, stateAt_succ]
    refine ⟨by rw [p1]; simp only [Prod.mk.injEq]; constructor <;> (push_cast; ring), ?_⟩
    rw [e2, p1, stepState_eq]
    have hn : ¬ (-(2 * (((m : Nat) + 1 : Int) + 1)) > 0) := by omega
    rw [if_neg hn]
    simp only [Prod.mk.injEq]
    constructor <;> (push_cast; ring)

/-- In start mode the search probes every position at distance `d` from its
starting point within `2 d` iterations. -/
theorem start_hits (i p : Int) :
    ∃ j : Nat, j ≤ 2 * (p - i).natAbs ∧ (stateAt i (-1) j).1 = p := by
  rcases lt_trichotomy p i with h | h | h
  · refine ⟨2 * (i - p - 1).toNat + 1, by omega, ?_⟩
    rw [(stateAt_start i ((i - p - 1).toNat)).1]
    show i - (((i - p - 1).toNat : Int) + 1) = p
    omega
  · exact ⟨0, by omega, by rw [h]; rfl⟩
  · refine ⟨2 * (p - i - 1).toNat + 2, by omega, ?_⟩
    rw [(stateAt_start i ((p - i - 1).toNat)).2]
    show i + (((p - i - 1).toNat : Int) + 1) = p
    omega

/-- In end mode the search probes every position at distance `d` from its
starting point within `2 d` iterations. -/
theorem end_hits (i p : Int) :
    ∃ j : Nat, j ≤ 2 * (p - i).natAbs ∧ (stateAt i 1 j).1 = p := by
  rcases lt_trichotomy p i with h | h | h
  · refine ⟨2 * (i - p - 1).toNat + 2, by omega, ?_⟩
    rw [(stateAt_end i ((i - p - 1).toNat)).2]
    show i - (((i - p - 1).toNat : Int) + 1) = p
    omega
  · exact ⟨0, by omega, by rw [h]; rfl⟩
  · refine ⟨2 * (p - i - 1).toNat + 1, by omega, ?_⟩
    rw [(stateAt_end i ((p - i - 1).toNat)).1]
    show i + (((p - i - 1).toNat : Int) + 1) = p
    omega

/-! ### The padded text -/

theorem padded_length (text : List Char) :
    (' ' :: text ++ [' ']).length = text.length + 2 := by
  simp

theorem cAtN_padded_zero (text : List Char) : cAtN (' ' :: text ++ [' ']) 0 = ' ' := rfl

theorem cAtN_padded_succ (text : List Char) (k : Nat) (h : k < text.length) :
    cAtN (' ' :: text ++ [' ']) (k + 1) = cAtN text k := by
  show ((' ' :: text) ++ [' ']).getD (k + 1) ' ' = text.getD k ' '
  rw [List.getD_append _ _ _ _ (by simp only [List.length_cons]; omega)]
  exact List.getD_cons_succ

theorem cAtN_padded_last (text : List Char) :
    cAtN (' ' :: text ++ [' ']) (text.length + 1) = ' ' := by
  show ((' ' :: text) ++ [' ']).getD (text.length + 1) ' ' = ' '
  rw [List.getD_append_right _ _ _ _ (by simp only [List.length_cons]; omega)]
  simp

theorem cAt_eq_cAtN (t : List Char) (i : Int) : cAt t i = cAtN t i.toNat := rfl

/-- The inner character of the padded text at padded position `k`
(`1 ≤ k ≤ len`) is the text character at position `k - 1`. -/
theorem cAt_padded_inner (text : List Char) (k : Int) (h1 : 1 ≤ k)
    (h2 : k ≤ (text.length : Int)) :
    cAt (' ' :: text ++ [' ']) k = cAt text (k - 1) := by
  rw [cAt_eq_cAtN, cAt_eq_cAtN]
  have hk : k.toNat = (k - 1).toNat + 1 := by omega
  rw [hk]
  exact cAtN_padded_succ text _ (by omega)

/-! ### Existence of borders -/

/-- If some position of `L` holds a word character but position 0 does not,
then scanning left from any word character finds a start border. -/
theorem first_border (wc : Char → Bool) (L : List Char) :
    ∀ j : Nat, j < L.length → wc (cAtN L j) = true → wc (cAtN L 0) = false →
      ∃ p : Nat, 1 ≤ p ∧ p < L.length ∧ wc (cAtN L (p - 1)) = false ∧
        wc (cAtN L p) = true := by
  intro j
  induction j with
  | zero => intro _ hj h0; rw [hj] at h0; cases h0
  | succ j ih =>
    intro hlen hj h0
    by_cases hprev : wc (cAtN L j) = true
    · exact ih (by omega) hprev h0
    · exact ⟨j + 1, by omega, hlen, by simpa using hprev, hj⟩

/-- If some position of `L` holds a word character but the last position does
not, then scanning right from any word character finds an end border. -/
theorem last_border (wc : Char → Bool) (L : List Char) :
    ∀ (n j : Nat), L.length - 1 - j = n → j < L.length → wc (cAtN L j) = true →
      wc (cAtN L (L.length - 1)) = false →
      ∃ p : Nat, 1 ≤ p ∧ p < L.length ∧ wc (cAtN L (p - 1)) = true ∧
        wc (cAtN L p) = false := by
  intro n
  induction n with
  | zero =>
    intro j hn hlen hj hlast
    have : j = L.length - 1 := by omega
    rw [this, hlast] at hj
    cases hj
  | succ n ih =>
    intro j hn hlen hj hlast
    by_cases hnext : wc (cAtN L (j + 1)) = true
    · exact ih (j + 1) (by omega) (by omega) hnext hlast
    · exact ⟨j + 1, by omega, by omega, by simpa using hj, by simpa using hnext⟩

/-- A text containing a word character yields a start border in the padded
text: `¬wc a ∧ wc b` at some padded position in `[1, len+1]`. -/
theorem exists_start_border (wc : Char → Bool) (text : List Char)
    (h0 : wc ' ' = false) (hex : ∃ c ∈ text, wc c = true) :
    ∃ p : Nat, 1 ≤ p ∧ p < text.length + 2 ∧
      wc (cAtN (' ' :: text ++ [' ']) (p - 1)) = false ∧
      wc (cAtN (' ' :: text ++ [' ']) p) = true := by
  obtain ⟨c, hc, hwc⟩ := hex
  obtain ⟨k, hk, hck⟩ := List.mem_iff_getElem.mp hc
  have hat : cAtN text k = c := by
    simp [cAtN, List.getD_eq_getElem?_getD, List.getElem?_eq_getElem hk, hck]
  have hp := first_border wc (' ' :: text ++ [' ']) (k + 1)
    (by rw [padded_length]; omega)
    (by rw [cAtN_padded_succ text k hk, hat]; exact hwc)
    (by rw [cAtN_padded_zero]; exact h0)
  obtain ⟨p, h1, h2, h3, h4⟩ := hp
  exact ⟨p, h1, by rwa [padded_length] at h2, h3, h4⟩

/-- A text containing a word character yields an end border in the padded
text: `wc a ∧ ¬wc b` at some padded position in `[1, len+1]`. -/
theorem exists_end_border (wc : Char → Bool) (text : List Char)
    (h0 : wc ' ' = false) (hex : ∃ c ∈ text, wc c = true) :
    ∃ p : Nat, 1 ≤ p ∧ p < text.length + 2 ∧
      wc (cAtN (' ' :: text ++ [' ']) (p - 1)) = true ∧
      wc (cAtN (' ' :: text ++ [' ']) p) = false := by
  obtain ⟨c, hc, hwc⟩ := hex
  obtain ⟨k, hk, hck⟩ := List.mem_iff_getElem.mp hc
  have hat : cAtN text k = c := by
    simp [cAtN, List.getD_eq_getElem?_getD, List.getElem?_eq_getElem hk, hck]
  have hlast : cAtN (' ' :: text ++ [' ']) ((' ' :: text ++ [' ']).length - 1) = ' ' := by
    rw [padded_length]
    exact cAtN_padded_last text
  have hp := last_border wc (' ' :: text ++ [' '])
    ((' ' :: text ++ [' ']).length - 1 - (k + 1)) (k + 1) rfl
    (by rw [padded_length]; omega)
    (by rw [cAtN_padded_succ text k hk, hat]; exact hwc)
    (by rw [hlast]; exact h0)
  obtain ⟨p, h1, h2, h3, h4⟩ := hp
  exact ⟨p, h1, by rwa [padded_length] at h2, h3, h4⟩

/-! ### Termination and characterisation of `fix_char_index` -/

theorem padded_length_int (text : List Char) :
    (((' ' :: text ++ [' ']).length : Nat) : Int) = (text.length : Int) + 2 := by
  rw [padded_length]; push_cast; ring

theorem cAt_padded_zero (text : List Char) : cAt (' ' :: text ++ [' ']) 0 = ' ' := rfl

theorem cAt_padded_top (text : List Char) :
    cAt (' ' :: text ++ [' ']) ((text.length : Int) + 1) = ' ' := by
  rw [cAt_eq_cAtN]
  have : ((text.length : Int) + 1).toNat = text.length + 1 := by omega
  rw [this]
  exact cAtN_padded_last text

theorem probe_ok_of_border (wc : Char → Bool) (m : Bool) (text : List Char) (p : Nat)
    (h1 : 1 ≤ p) (h2 : p < text.length + 2)
    (hb : is_border wc m (cAtN (' ' :: text ++ [' ']) (p - 1))
      (cAtN (' ' :: text ++ [' ']) p) = true) :
    probe_ok wc m (' ' :: text ++ [' ']) (p : Int) := by
  refine ⟨by omega, by rw [padded_length]; push_cast; omega, ?_⟩
  have n1 : ((p : Int) - 1).toNat = p - 1 := by omega
  have n2 : ((p : Int)).toNat = p := by omega
  have e1 : cAt (' ' :: text ++ [' ']) ((p : Int) - 1) = cAtN (' ' :: text ++ [' ']) (p - 1) := by
    rw [cAt_eq_cAtN, n1]
  have e2 : cAt (' ' :: text ++ [' ']) (p : Int) = cAtN (' ' :: text ++ [' ']) p := by
    rw [cAt_eq_cAtN, n2]
  rw [e1, e2]
  exact hb

/-- Fuel linear in the text length and the index magnitude suffices for the
border search to succeed, in either mode, whenever the text holds at least
one word character. -/
theorem search_terminates (wc : Char → Bool) (m : Bool) (text : List Char) (i : Int)
    (fuel : Nat) (hf : 2 * (text.length + i.natAbs) + 6 ≤ fuel)
    (h0 : wc ' ' = false) (hex : ∃ c ∈ text, wc c = true) :
    ∃ ic, search_loop wc m (' ' :: text ++ [' ']) fuel (i + 1)
      (if m then -1 else 1) = some ic := by
  cases m with
  | true =>
    obtain ⟨p, h1, h2, hb1, hb2⟩ := exists_start_border wc text h0 hex
    have hb : is_border wc true (cAtN (' ' :: text ++ [' ']) (p - 1))
        (cAtN (' ' :: text ++ [' ']) p) = true := by
      show (!wc (cAtN (' ' :: text ++ [' ']) (p - 1)) &&
        wc (cAtN (' ' :: text ++ [' ']) p)) = true
      rw [hb1, hb2]
      rfl
    have hprobe : probe_ok wc true (' ' :: text ++ [' ']) (p : Int) :=
      probe_ok_of_border wc true text p h1 h2 hb
    obtain ⟨j, hj, hjp⟩ := start_hits (i + 1) (p : Int)
    refine loop_finds wc true (' ' :: text ++ [' ']) fuel (i + 1) (-1) ⟨j, by omega, ?_⟩
    rw [hjp]
    exact hprobe
  | false =>
    obtain ⟨p, h1, h2, hb1, hb2⟩ := exists_end_border wc text h0 hex
    have hb : is_border wc false (cAtN (' ' :: text ++ [' ']) (p - 1))
        (cAtN (' ' :: text ++ [' ']) p) = true := by
      show (wc (cAtN (' ' :: text ++ [' ']) (p - 1)) &&
        !wc (cAtN (' ' :: text ++ [' ']) p)) = true
      rw [hb1, hb2]
      rfl
    have hprobe : probe_ok wc false (' ' :: text ++ [' ']) (p : Int) :=
      probe_ok_of_border wc false text p h1 h2 hb
    obtain ⟨j, hj, hjp⟩ := end_hits (i + 1) (p : Int)
    refine loop_finds wc false (' ' :: text ++ [' ']) fuel (i + 1) 1 ⟨j, by omega, ?_⟩
    rw [hjp]
    exact hprobe

/-- If the border search succeeds, `fix_char_index` returns its result, with
the abbreviation-period override applied. -/
theorem fix_char_index_of_loop (wc : Char → Bool) (fuel : Nat) (text : List Char)
    (i : Int) (m : Bool) (ic : Int)
    (h : search_loop wc m (' ' :: text ++ [' ']) fuel (i + 1)
      (if m then -1 else 1) = some ic) :
    fix_char_index wc fuel text i m =
      if cAt (' ' :: text ++ [' ']) ic = '.' ∧
          dot_spaces_match ((' ' :: text ++ [' ']).drop ic.toNat) = false
      then some ic else some (ic - 1) := by
  simp only [fix_char_index]
  rw [h]
  show (if cAt (' ' :: text ++ [' ']) ic = '.' ∧
      dot_spaces_match ((' ' :: text ++ [' ']).drop ic.toNat) = false
    then some (ic + 1 - 1) else some (ic - 1)) = _
  split
  · congr 1
    omega
  · rfl

theorem fix_char_index_of_loop_none (wc : Char → Bool) (fuel : Nat) (text : List Char)
    (i : Int) (m : Bool)
    (h : search_loop wc m (' ' :: text ++ [' ']) fuel (i + 1)
      (if m then -1 else 1) = none) :
    fix_char_index wc fuel text i m = none := by
  simp only [fix_char_index]
  rw [h]

/-- Conversely, a successful `fix_char_index` run comes from a successful
border search, the result being the border position or one past it. -/
theorem fix_char_index_cases (wc : Char → Bool) (fuel : Nat) (text : List Char)
    (i : Int) (m : Bool) (r : Int)
    (h : fix_char_index wc fuel text i m = some r) :
    ∃ ic, search_loop wc m (' ' :: text ++ [' ']) fuel (i + 1)
        (if m then -1 else 1) = some ic ∧
      probe_ok wc m (' ' :: text ++ [' ']) ic ∧
      ((cAt (' ' :: text ++ [' ']) ic = '.' ∧
          dot_spaces_match ((' ' :: text ++ [' ']).drop ic.toNat) = false ∧ r = ic) ∨
        (¬(cAt (' ' :: text ++ [' ']) ic = '.' ∧
          dot_spaces_match ((' ' :: text ++ [' ']).drop ic.toNat) = false) ∧ r = ic - 1)) := by
  cases hs : search_loop wc m (' ' :: text ++ [' ']) fuel (i + 1) (if m then -1 else 1) with
  | none =>
    rw [fix_char_index_of_loop_none wc fuel text i m hs] at h
    cases h
  | some ic =>
    rw [fix_char_index_of_loop wc fuel text i m ic hs] at h
    refine ⟨ic, rfl, search_loop_sound wc m (' ' :: text ++ [' ']) fuel _ _ ic hs, ?_⟩
    split at h
    · next hc => exact Or.inl ⟨hc.1, hc.2, by injection h with h2; omega⟩
    · next hc => exact Or.inr ⟨hc, by injection h with h2; omega⟩

/-- Facts about a successful start-mode run: the abbreviation override never
fires (the border character is a word character), the result is the border
position shifted back, it lies in `[0, len-1]`, and the text character at the
result is a word character. -/
theorem fci_start_facts (wc : Char → Bool) (fuel : Nat) (text : List Char)
    (i r : Int) (h0 : wc ' ' = false) (hdot : wc '.' = false)
    (h : fix_char_index wc fuel text i true = some r) :
    ∃ ic, search_loop wc true (' ' :: text ++ [' ']) fuel (i + 1) (-1) = some ic ∧
      cAt (' ' :: text ++ [' ']) ic ≠ '.' ∧ r = ic - 1 ∧
      0 ≤ r ∧ r + 1 ≤ (text.length : Int) ∧ wc (cAt text r) = true := by
  obtain ⟨ic, hs, hp, hcase⟩ := fix_char_index_cases wc fuel text i true r h
  obtain ⟨hp1, hp2, hp3⟩ := hp
  have hpair : (!wc (cAt (' ' :: text ++ [' ']) (ic - 1)) &&
      wc (cAt (' ' :: text ++ [' ']) ic)) = true := hp3
  rw [Bool.and_eq_true] at hpair
  have hwcic : wc (cAt (' ' :: text ++ [' ']) ic) = true := hpair.2
  have hne : cAt (' ' :: text ++ [' ']) ic ≠ '.' := by
    intro hcontra
    rw [hcontra, hdot] at hwcic
    cases hwcic
  have hlen : ic < (text.length : Int) + 2 := by rw [padded_length_int] at hp2; exact hp2
  have hic_le : ic ≤ (text.length : Int) := by
    by_contra hgt
    have hic_eq : ic = (text.length : Int) + 1 := by omega
    rw [hic_eq, cAt_padded_top, h0] at hwcic
    cases hwcic
  rcases hcase with ⟨hd, _, _⟩ | ⟨_, hr⟩
  · exact absurd hd hne
  · refine ⟨ic, hs, hne, hr, by omega, by omega, ?_⟩
    rw [hr, ← cAt_padded_inner text ic (by omega) hic_le]
    exact hwcic

/-- Facts about a successful end-mode run: the result lies in `[1, len]` and
the character just before it is a word character or the period the
abbreviation override stepped over. -/
theorem fci_end_facts (wc : Char → Bool) (fuel : Nat) (text : List Char)
    (i r : Int) (h0 : wc ' ' = false)
    (h : fix_char_index wc fuel text i false = some r) :
    1 ≤ r ∧ r ≤ (text.length : Int) ∧
      (wc (cAt text (r - 1)) = true ∨ cAt text (r - 1) = '.') := by
  obtain ⟨ic, hs, hp, hcase⟩ := fix_char_index_cases wc fuel text i false r h
  obtain ⟨hp1, hp2, hp3⟩ := hp
  have hpair : (wc (cAt (' ' :: text ++ [' ']) (ic - 1)) &&
      !wc (cAt (' ' :: text ++ [' ']) ic)) = true := hp3
  rw [Bool.and_eq_true] at hpair
  have hwca : wc (cAt (' ' :: text ++ [' ']) (ic - 1)) = true := hpair.1
  have hlen : ic < (text.length : Int) + 2 := by rw [padded_length_int] at hp2; exact hp2
  have hic2 : 2 ≤ ic := by
    by_contra hlt
    have hone : ic - 1 = 0 := by omega
    rw [hone, cAt_padded_zero, h0] at hwca
    cases hwca
  rcases hcase with ⟨hd, _, hr⟩ | ⟨_, hr⟩
  · have hic_le : ic ≤ (text.length : Int) := by
      by_contra hgt
      have hic_eq : ic = (text.length : Int) + 1 := by omega
      rw [hic_eq, cAt_padded_top] at hd
      exact absurd hd (by decide)
    refine ⟨by omega, by omega, Or.inr ?_⟩
    have hinner := cAt_padded_inner text ic (by omega) hic_le
    rw [hr, ← hinner]
    exact hd
  · refine ⟨by omega, by omega, Or.inl ?_⟩
    have hinner := cAt_padded_inner text (ic - 1) (by omega) (by omega)
    rw [hr, ← hinner]
    exact hwca

/-- Bounded termination of `fix_char_index`: with fuel linear in the text
length and the index magnitude, the call succeeds in either mode and returns
a value in `[0, len]`, provided the text holds at least one word character. -/
theorem fci_terminates (wc : Char → Bool) (m : Bool) (text : List Char) (i : Int)
    (fuel : Nat) (hf : 2 * (text.length + i.natAbs) + 6 ≤ fuel)
    (h0 : wc ' ' = false) (hex : ∃ c ∈ text, wc c = true) :
    ∃ r, fix_char_index wc fuel text i m = some r ∧ 0 ≤ r ∧ r ≤ (text.length : Int) := by
  obtain ⟨ic, hs⟩ := search_terminates wc m text i fuel hf h0 hex
  obtain ⟨hp1, hp2, _⟩ := search_loop_sound wc m _ fuel _ _ ic hs
  have hlen : ic < (text.length : Int) + 2 := by rw [padded_length_int] at hp2; exact hp2
  rw [fix_char_index_of_loop wc fuel text i m ic hs]
  split
  · next hc =>
    have hic_le : ic ≤ (text.length : Int) := by
      by_contra hgt
      have hic_eq : ic = (text.length : Int) + 1 := by omega
      rw [hic_eq, cAt_padded_top] at hc
      exact absurd hc.1 (by decide)
    exact ⟨ic, rfl, by omega, by omega⟩
  · exact ⟨ic - 1, rfl, by omega, by omega⟩

/-! ### Divergence on texts without word characters -/

/-- If no position of the padded text satisfies the border predicate, the
search loop diverges: it returns `none` for every amount of fuel. -/
theorem search_loop_none_of_no_border (wc : Char → Bool) (st : Bool)
    (padded : List Char) (hnb : ∀ c : Int, ¬ probe_ok wc st padded c) :
    ∀ (n : Nat) (c s : Int), search_loop wc st padded n c s = none := by
  intro n
  induction n with
  | zero => intro c s; rfl
  | succ n ih =>
    intro c s
    rw [search_loop_succ, if_neg (hnb c)]
    exact ih _ _

/-- The empty text has no border in either mode: its padding consists of two
spaces only, so no probe of `fix_char_index` can ever succeed — the `while`
loop of `clean.py` runs forever. -/
theorem fix_char_index_empty_diverges (m : Bool) (fuel : Nat) :
    fix_char_index is_char_ascii fuel [] 0 m = none := by
  apply fix_char_index_of_loop_none
  apply search_loop_none_of_no_border
  intro c
  rintro ⟨h1, h2, h3⟩
  have hlen : ((([' '] ++ [' '] : List Char)).length : Int) = 2 := by decide
  have hc : c = 1 := by
    have : (((' ' :: ([] : List Char) ++ [' '])).length : Int) = 2 := by decide
    omega
  rw [hc] at h3
  revert h3
  cases m <;> decide

/-! ### Claim C1 -/

/-- C1 (counterexample): the claim promises termination for every text and
every in-bounds index, but on a text with no word characters (here the empty
text, index 0, which satisfies `0 ≤ index ≤ len(text)`) the border search of
`fix_char_index` finds no border and returns `none` — not only within the
linear fuel `4·len+8` but also with far more fuel (and, by
`fix_char_index_empty_diverges`, with any fuel whatsoever). -/
theorem C1_cex_no_word_char_diverges :
    fix_char_index is_char_ascii (4 * ([] : List Char).length + 8) [] 0 true = none ∧
    fix_char_index is_char_ascii 100 [] 0 true = none ∧
    fix_char_index is_char_ascii 100 [] 0 false = none :=
  ⟨fix_char_index_empty_diverges true _, fix_char_index_empty_diverges true 100,
    fix_char_index_empty_diverges false 100⟩

/-- C1 (amended): for every text containing at least one word character and
every index with `0 ≤ index ≤ len(text)`, `fix_char_index` in either mode
terminates within a number of probe steps linear in `len(text)` (fuel
`4·len + 8` suffices) and returns a value in `[0, len(text)]`. -/
theorem C1_boundary_search_terminates (wc : Char → Bool) (text : List Char)
    (i : Int) (m : Bool) (h0 : wc ' ' = false) (hex : ∃ c ∈ text, wc c = true)
    (h1 : 0 ≤ i) (h2 : i ≤ (text.length : Int)) :
    ∃ r, fix_char_index wc (4 * text.length + 8) text i m = some r ∧
      0 ≤ r ∧ r ≤ (text.length : Int) := by
  apply fci_terminates wc m text i _ _ h0 hex
  omega

/-- Witness for C1 at a concrete input: text `"ab"`, index 1, start mode. -/
theorem C1_boundary_search_terminates_witness :
    ∃ r, fix_char_index is_char_ascii (4 * ("ab".toList).length + 8) "ab".toList 1 true = some r ∧
      0 ≤ r ∧ r ≤ (("ab".toList).length : Int) :=
  C1_boundary_search_terminates is_char_ascii "ab".toList 1 true (by decide)
    ⟨'a', by decide, by decide⟩ (by decide) (by decide)

/-! ### Claim C10 -/

/-- C10: whenever `fix_char_index` in start mode terminates with result `r`,
then `0 ≤ r ≤ len(text) - 1` and `text[r]` is a word character; moreover the
result is exactly the located border position (shifted back by the padding)
and the border character is not a period, i.e. the abbreviation-period
override never fires in start mode. -/
theorem C10_start_mode_result_is_word_char (wc : Char → Bool) (text : List Char)
    (i : Int) (fuel : Nat) (r : Int) (h0 : wc ' ' = false) (hdot : wc '.' = false)
    (h : fix_char_index wc fuel text i true = some r) :
    0 ≤ r ∧ r + 1 ≤ (text.length : Int) ∧ wc (cAt text r) = true ∧
      ∃ ic, search_loop wc true (' ' :: text ++ [' ']) fuel (i + 1) (-1) = some ic ∧
        cAt (' ' :: text ++ [' ']) ic ≠ '.' ∧ r = ic - 1 := by
  obtain ⟨ic, hs, hne, hr, h0r, h1r, hwcr⟩ := fci_start_facts wc fuel text i r h0 hdot h
  exact ⟨h0r, h1r, hwcr, ic, hs, hne, hr⟩

/-- Witness for C10 at a concrete input: text `"ab"`, index 1, start mode,
result 0. -/
theorem C10_start_mode_result_is_word_char_witness :
    0 ≤ (0 : Int) ∧ (0 : Int) + 1 ≤ (("ab".toList).length : Int) ∧
      is_char_ascii (cAt "ab".toList 0) = true ∧
      ∃ ic, search_loop is_char_ascii true (' ' :: "ab".toList ++ [' ']) 16 (1 + 1) (-1) = some ic ∧
        cAt (' ' :: "ab".toList ++ [' ']) ic ≠ '.' ∧ (0 : Int) = ic - 1 :=
  C10_start_mode_result_is_word_char is_char_ascii "ab".toList 1 16 0
    (by decide) (by decide) (by decide)

/-- Characterisation of `fix_parenthesis`: both conditions are computed from
the original `s`, `e` and `text[s:e]`; when the right condition holds the
result is the right extension (the code's second assignment overwrites the
first candidate), otherwise the left extension when its condition holds,
otherwise the span unchanged. -/
theorem fix_parenthesis_eq (text : List Char) (s e : Int) (lab : String) :
    fix_parenthesis text (s, e, lab) =
      if right_paren_cond text s e then (s, e + 1, lab)
      else if left_paren_cond text s e then (s - 1, e, lab)
      else (s, e, lab) := by
  unfold fix_parenthesis right_paren_cond left_paren_cond
  dsimp only

/-! ### Claim C3 -/

/-- C3: the two parenthesis-repair extensions are each decided against the
original span boundaries (the characterisation computes both conditions from
the original `s`, `e` and `text[s:e]`; neither condition sees the other
extension's result).  Moreover the two conditions are mutually exclusive —
`text[s:e]` cannot hold both more `')'` than `'('` and more `'('` than `')'`
— so the claim's both-conditions case, in which the span is extended on both
sides, holds vacuously. -/
theorem C3_fix_parenthesis_original_boundaries (text : List Char) (s e : Int)
    (lab : String) (_hs0 : 0 ≤ s) (_hsl : s ≤ (text.length : Int)) (_he0 : 0 ≤ e) :
    (fix_parenthesis text (s, e, lab) =
      if right_paren_cond text s e then (s, e + 1, lab)
      else if left_paren_cond text s e then (s - 1, e, lab)
      else (s, e, lab)) ∧
    ¬(left_paren_cond text s e ∧ right_paren_cond text s e) ∧
    (left_paren_cond text s e ∧ right_paren_cond text s e →
      fix_parenthesis text (s, e, lab) = (s - 1, e + 1, lab)) := by
  have hexc : ¬(left_paren_cond text s e ∧ right_paren_cond text s e) := by
    rintro ⟨⟨_, _, hL⟩, ⟨_, _, hR⟩⟩
    omega
  exact ⟨fix_parenthesis_eq text s e lab, hexc, fun h => absurd h hexc⟩

/-- Witness for C3 at a concrete input: text `"(a)"`, span `(1, 3, "X")`
(left condition holds, right does not; result `(0, 3, "X")`). -/
theorem C3_fix_parenthesis_original_boundaries_witness :
    (fix_parenthesis "(a)".toList (1, 3, "X") =
      if right_paren_cond "(a)".toList 1 3 then ((1 : Int), (3 : Int) + 1, "X")
      else if left_paren_cond "(a)".toList 1 3 then ((1 : Int) - 1, (3 : Int), "X")
      else ((1 : Int), (3 : Int), "X")) ∧
    ¬(left_paren_cond "(a)".toList 1 3 ∧ right_paren_cond "(a)".toList 1 3) ∧
    (left_paren_cond "(a)".toList 1 3 ∧ right_paren_cond "(a)".toList 1 3 →
      fix_parenthesis "(a)".toList (1, 3, "X") = ((1 : Int) - 1, (3 : Int) + 1, "X")) :=
  C3_fix_parenthesis_original_boundaries "(a)".toList 1 3 "X"
    (by decide) (by decide) (by decide)

/-! ### Slices and the whitespace assertion -/

theorem py_idx_eq (len : Nat) (b : Int) (h0 : 0 ≤ b) (hb : b ≤ (len : Int)) :
    py_idx len b = b.toNat := by
  unfold py_idx
  rw [if_neg (by omega)]
  omega

theorem py_slice_eq (t : List Char) (a b : Int) (h0 : 0 ≤ a) (hb0 : 0 ≤ b)
    (ha : a ≤ (t.length : Int)) (hb : b ≤ (t.length : Int)) :
    py_slice t a b = (t.take b.toNat).drop a.toNat := by
  unfold py_slice
  rw [py_idx_eq _ _ hb0 hb, py_idx_eq _ _ h0 ha]

theorem py_slice_head (t : List Char) (a b : Int) (h0 : 0 ≤ a) (hab : a < b)
    (hb : b ≤ (t.length : Int)) :
    (py_slice t a b).head? = some (cAt t a) := by
  have hbound : a.toNat < t.length := by omega
  rw [py_slice_eq t a b h0 (by omega) (by omega) hb]
  rw [List.head?_drop]
  rw [List.getElem?_take, if_pos (by omega)]
  rw [List.getElem?_eq_getElem hbound]
  rw [cAt_eq_cAtN]
  unfold cAtN
  rw [List.getD_eq_getElem t ' ' hbound]

theorem py_slice_getLast (t : List Char) (a b : Int) (h0 : 0 ≤ a) (hab : a < b)
    (hb : b ≤ (t.length : Int)) :
    (py_slice t a b).getLast? = some (cAt t (b - 1)) := by
  have hbound : b.toNat - 1 < t.length := by omega
  rw [py_slice_eq t a b h0 (by omega) (by omega) hb]
  rw [List.getLast?_eq_getElem?]
  have hlen : ((t.take b.toNat).drop a.toNat).length = b.toNat - a.toNat := by
    rw [List.length_drop, List.length_take]
    omega
  rw [hlen]
  rw [List.getElem?_drop]
  rw [List.getElem?_take, if_pos (by omega)]
  have harg : a.toNat + (b.toNat - a.toNat - 1) = b.toNat - 1 := by omega
  rw [harg]
  rw [List.getElem?_eq_getElem hbound]
  rw [cAt_eq_cAtN]
  have hm : (b - 1).toNat = b.toNat - 1 := by omega
  rw [hm]
  unfold cAtN
  rw [List.getD_eq_getElem t ' ' hbound]

theorem py_slice_nil (t : List Char) (a b : Int) (hb0 : 0 ≤ b) (hba : b ≤ a) :
    py_slice t a b = [] := by
  unfold py_slice
  apply List.drop_eq_nil_of_le
  rw [List.length_take]
  unfold py_idx
  rw [if_neg (by omega), if_neg (by omega)]
  omega

theorem starts_with_space_false (l : List Char)
    (h : ∀ c, l.head? = some c → c ≠ ' ') : starts_with_space l = false := by
  cases l with
  | nil => rfl
  | cons c rest =>
    have hc := h c rfl
    unfold starts_with_space
    split
    · next heq => rw [List.cons.injEq] at heq; exact absurd heq.1 hc
    · rfl

theorem ends_with_space_false (l : List Char)
    (h : ∀ c, l.getLast? = some c → c ≠ ' ') : ends_with_space l = false := by
  unfold ends_with_space
  cases hg : l.getLast? with
  | none => rfl
  | some c =>
    have hc := h c hg
    simp [hc]

/-! ### Per-span processing -/

theorem fix_borders_one_eq (wc : Char → Bool) (text : List Char) (ent : Ent)
    (s e : Int)
    (hs : fix_char_index wc (fci_fuel text ent.1) text ent.1 true = some s)
    (he : fix_char_index wc (fci_fuel text ent.2.1) text ent.2.1 false = some e) :
    fix_borders_one wc text ent =
      if starts_with_space (py_slice text (fix_parenthesis text (s, e, ent.2.2)).1
            (fix_parenthesis text (s, e, ent.2.2)).2.1) ||
          ends_with_space (py_slice text (fix_parenthesis text (s, e, ent.2.2)).1
            (fix_parenthesis text (s, e, ent.2.2)).2.1) then none
      else some (fix_parenthesis text (s, e, ent.2.2)) := by
  unfold fix_borders_one
  rw [hs, he]

/-- Master per-span lemma: on a text with a word character, a span (of any
offsets whatsoever) is processed without error — the searches terminate, the
whitespace assertion passes — and the corrected offsets lie in `[0, len]`
with non-whitespace substring edges. -/
theorem fix_borders_one_ok (wc : Char → Bool) (text : List Char) (ent : Ent)
    (hws : ∀ c, c.isWhitespace = true → wc c = false) (hdot : wc '.' = false)
    (hex : ∃ c ∈ text, wc c = true) :
    ∃ sp : Ent, fix_borders_one wc text ent = some sp ∧
      0 ≤ sp.1 ∧ sp.1 ≤ (text.length : Int) ∧
      0 ≤ sp.2.1 ∧ sp.2.1 ≤ (text.length : Int) ∧
      (∀ c, (py_slice text sp.1 sp.2.1).head? = some c → c.isWhitespace = false) ∧
      (∀ c, (py_slice text sp.1 sp.2.1).getLast? = some c → c.isWhitespace = false) := by
  have h0 : wc ' ' = false := hws ' ' (by decide)
  obtain ⟨s, hs, hs0, hsl⟩ := fci_terminates wc true text ent.1 (fci_fuel text ent.1)
    (by unfold fci_fuel; omega) h0 hex
  obtain ⟨e, he, he0, hel⟩ := fci_terminates wc false text ent.2.1 (fci_fuel text ent.2.1)
    (by unfold fci_fuel; omega) h0 hex
  obtain ⟨ic, hloop, hicdot, hric, hsdown, hslen1, hsw⟩ :=
    fci_start_facts wc _ text ent.1 s h0 hdot hs
  obtain ⟨hedown, helen, hew⟩ := fci_end_facts wc _ text ent.2.1 e h0 he
  have hsw2 : (cAt text s).isWhitespace = false := by
    by_contra hc
    rw [Bool.not_eq_false] at hc
    rw [hws _ hc] at hsw
    cases hsw
  have hew2 : (cAt text (e - 1)).isWhitespace = false := by
    rcases hew with hw | hdotc
    · by_contra hc
      rw [Bool.not_eq_false] at hc
      rw [hws _ hc] at hw
      cases hw
    · rw [hdotc]
      decide
  have hchar := fix_parenthesis_eq text s e ent.2.2
  have hfacts : 0 ≤ (fix_parenthesis text (s, e, ent.2.2)).1 ∧
      (fix_parenthesis text (s, e, ent.2.2)).1 ≤ (text.length : Int) ∧
      0 ≤ (fix_parenthesis text (s, e, ent.2.2)).2.1 ∧
      (fix_parenthesis text (s, e, ent.2.2)).2.1 ≤ (text.length : Int) ∧
      ((fix_parenthesis text (s, e, ent.2.2)).1 < (fix_parenthesis text (s, e, ent.2.2)).2.1 →
        (cAt text (fix_parenthesis text (s, e, ent.2.2)).1).isWhitespace = false) ∧
      ((fix_parenthesis text (s, e, ent.2.2)).1 < (fix_parenthesis text (s, e, ent.2.2)).2.1 →
        (cAt text ((fix_parenthesis text (s, e, ent.2.2)).2.1 - 1)).isWhitespace = false) := by
    rw [hchar]
    by_cases hR : right_paren_cond text s e
    · rw [if_pos hR]
      dsimp only
      obtain ⟨hRe, hRc, _⟩ := hR
      refine ⟨hs0, by omega, by omega, by omega, fun _ => hsw2, fun _ => ?_⟩
      rw [show e + 1 - 1 = e from by ring, hRc]
      decide
    · rw [if_neg hR]
      by_cases hL : left_paren_cond text s e
      · rw [if_pos hL]
        dsimp only
        obtain ⟨hLs, hLc, _⟩ := hL
        refine ⟨by omega, by omega, by omega, helen, fun _ => ?_, fun _ => hew2⟩
        rw [hLc]
        decide
      · rw [if_neg hL]
        dsimp only
        exact ⟨hs0, by omega, by omega, helen, fun _ => hsw2, fun _ => hew2⟩
  obtain ⟨hb1, hb2, hb3, hb4, hhead, hlast⟩ := hfacts
  have hedges : (∀ c, (py_slice text (fix_parenthesis text (s, e, ent.2.2)).1
        (fix_parenthesis text (s, e, ent.2.2)).2.1).head? = some c →
        c.isWhitespace = false) ∧
      (∀ c, (py_slice text (fix_parenthesis text (s, e, ent.2.2)).1
        (fix_parenthesis text (s, e, ent.2.2)).2.1).getLast? = some c →
        c.isWhitespace = false) := by
    by_cases hab : (fix_parenthesis text (s, e, ent.2.2)).1 <
        (fix_parenthesis text (s, e, ent.2.2)).2.1
    · rw [py_slice_head text _ _ hb1 hab hb4, py_slice_getLast text _ _ hb1 hab hb4]
      constructor
      · intro c hc
        injection hc with h2
        rw [← h2]
        exact hhead hab
      · intro c hc
        injection hc with h2
        rw [← h2]
        exact hlast hab
    · rw [py_slice_nil text _ _ hb3 (by omega)]
      constructor <;> intro c hc <;> cases hc
  have hsws : starts_with_space (py_slice text (fix_parenthesis text (s, e, ent.2.2)).1
      (fix_parenthesis text (s, e, ent.2.2)).2.1) = false := by
    apply starts_with_space_false
    intro c hc hceq
    have hwsf := hedges.1 c hc
    rw [hceq] at hwsf
    rw [show (' ').isWhitespace = true from rfl] at hwsf
    cases hwsf
  have hews : ends_with_space (py_slice text (fix_parenthesis text (s, e, ent.2.2)).1
      (fix_parenthesis text (s, e, ent.2.2)).2.1) = false := by
    apply ends_with_space_false
    intro c hc hceq
    have hwsf := hedges.2 c hc
    rw [hceq] at hwsf
    rw [show (' ').isWhitespace = true from rfl] at hwsf
    cases hwsf
  refine ⟨fix_parenthesis text (s, e, ent.2.2), ?_, hb1, hb2, hb3, hb4, hedges.1, hedges.2⟩
  rw [fix_borders_one_eq wc text ent s e hs he]
  rw [hsws, hews]
  rfl

/-- List-level processing: on a text with a word character, `fix_borders`
succeeds on every span list, and every output span is bounded with
non-whitespace substring edges. -/
theorem fix_borders_ok (wc : Char → Bool) (text : List Char) (ents : List Ent)
    (hws : ∀ c, c.isWhitespace = true → wc c = false) (hdot : wc '.' = false)
    (hex : ∃ c ∈ text, wc c = true) :
    ∃ l, fix_borders wc ents text = some l ∧
      ∀ sp ∈ l, 0 ≤ sp.1 ∧ sp.1 ≤ (text.length : Int) ∧
        0 ≤ sp.2.1 ∧ sp.2.1 ≤ (text.length : Int) ∧
        (∀ c, (py_slice text sp.1 sp.2.1).head? = some c → c.isWhitespace = false) ∧
        (∀ c, (py_slice text sp.1 sp.2.1).getLast? = some c → c.isWhitespace = false) := by
  induction ents with
  | nil => exact ⟨[], rfl, by intro sp hsp; cases hsp⟩
  | cons ent rest ih =>
    obtain ⟨l, hl, hprops⟩ := ih
    obtain ⟨sp, hsp, p1, p2, p3, p4, p5, p6⟩ := fix_borders_one_ok wc text ent hws hdot hex
    refine ⟨sp :: l, ?_, ?_⟩
    · show map_opt (fix_borders_one wc text) (ent :: rest) = some (sp :: l)
      unfold map_opt
      rw [hsp, show map_opt (fix_borders_one wc text) rest = some l from hl]
    · intro x hx
      rcases List.mem_cons.mp hx with hx | hx
      · rw [hx]; exact ⟨p1, p2, p3, p4, p5, p6⟩
      · exact hprops x hx

theorem no_space_head (l : List Char)
    (h : ∀ c, l.head? = some c → c.isWhitespace = false) :
    starts_with_space l = false := by
  apply starts_with_space_false
  intro c hc hceq
  have hwsf := h c hc
  rw [hceq, show (' ').isWhitespace = true from rfl] at hwsf
  cases hwsf

theorem no_space_last (l : List Char)
    (h : ∀ c, l.getLast? = some c → c.isWhitespace = false) :
    ends_with_space l = false := by
  apply ends_with_space_false
  intro c hc hceq
  have hwsf := h c hc
  rw [hceq, show (' ').isWhitespace = true from rfl] at hwsf
  cases hwsf

/-- The ASCII classifier maps whitespace to false, as the Python regex
`[\w\d]` does. -/
theorem is_char_ascii_not_ws : ∀ c : Char, c.isWhitespace = true → is_char_ascii c = false := by
  intro c hc
  have hd : ((c = ' ' ∨ c = '\t') ∨ c = '\r') ∨ c = '\n' := by
    simpa [Char.isWhitespace] using hc
  rcases hd with ((h | h) | h) | h <;> rw [h] <;> decide

/-! ### Claim C4 -/

/-- C4: for every text containing at least one word character and every list
of input spans, `fix_borders` succeeds — the fatal assertion's failure branch
is unreachable — and each output span's substring `text[start:end]` neither
begins nor ends with a whitespace character (in particular not with the space
character the assertion checks). -/
theorem C4_no_whitespace_edges (wc : Char → Bool) (text : List Char) (ents : List Ent)
    (hws : ∀ c, c.isWhitespace = true → wc c = false) (hdot : wc '.' = false)
    (hex : ∃ c ∈ text, wc c = true) :
    ∃ l, fix_borders wc ents text = some l ∧
      ∀ sp ∈ l, starts_with_space (py_slice text sp.1 sp.2.1) = false ∧
        ends_with_space (py_slice text sp.1 sp.2.1) = false ∧
        (∀ c, (py_slice text sp.1 sp.2.1).head? = some c → c.isWhitespace = false) ∧
        (∀ c, (py_slice text sp.1 sp.2.1).getLast? = some c → c.isWhitespace = false) := by
  obtain ⟨l, hl, hprops⟩ := fix_borders_ok wc text ents hws hdot hex
  refine ⟨l, hl, fun sp hsp => ?_⟩
  obtain ⟨_, _, _, _, p5, p6⟩ := hprops sp hsp
  exact ⟨no_space_head _ p5, no_space_last _ p6, p5, p6⟩

/-- Witness for C4 at a concrete input: text `"ab"`, spans `(0,2)` and the
badly misaligned `(5,-3)`. -/
theorem C4_no_whitespace_edges_witness :
    ∃ l, fix_borders is_char_ascii [((0 : Int), 2, "X"), ((5 : Int), -3, "Y")]
        "ab".toList = some l ∧
      ∀ sp ∈ l, starts_with_space (py_slice "ab".toList sp.1 sp.2.1) = false ∧
        ends_with_space (py_slice "ab".toList sp.1 sp.2.1) = false ∧
        (∀ c, (py_slice "ab".toList sp.1 sp.2.1).head? = some c → c.isWhitespace = false) ∧
        (∀ c, (py_slice "ab".toList sp.1 sp.2.1).getLast? = some c → c.isWhitespace = false) :=
  C4_no_whitespace_edges is_char_ascii "ab".toList [((0 : Int), 2, "X"), ((5 : Int), -3, "Y")]
    is_char_ascii_not_ws (by decide) ⟨'a', by decide, by decide⟩

/-! ### Claim C6 -/

/-- C6 (counterexample): the well-formed input span `(2,3)` on `"ab cd"`
(which satisfies `0 ≤ 2 < 3 ≤ 5`) is corrected to `(3,2)`: the start locator
moves 2 right to the border at 3 and the end locator moves 3 left to the
border at 2, producing an inverted span, so `start' < end'` fails. -/
theorem C6_cex_inverted_span :
    fix_borders is_char_ascii [((2 : Int), 3, "X")] "ab cd".toList =
      some [((3 : Int), (2 : Int), "X")] ∧ ¬((3 : Int) < (2 : Int)) :=
  ⟨by decide, by decide⟩

/-- C6 (amended): for every text containing at least one word character and
every input span, the corrected span `(start', end', label)` satisfies
`0 ≤ start' ≤ len(text)` and `0 ≤ end' ≤ len(text)`; the strict inequality
`start' < end'` of the original claim does not hold in general. -/
theorem C6_bounds_after_correction (wc : Char → Bool) (text : List Char)
    (ents : List Ent) (hws : ∀ c, c.isWhitespace = true → wc c = false)
    (hdot : wc '.' = false) (hex : ∃ c ∈ text, wc c = true) :
    ∃ l, fix_borders wc ents text = some l ∧
      ∀ sp ∈ l, 0 ≤ sp.1 ∧ sp.1 ≤ (text.length : Int) ∧
        0 ≤ sp.2.1 ∧ sp.2.1 ≤ (text.length : Int) := by
  obtain ⟨l, hl, hprops⟩ := fix_borders_ok wc text ents hws hdot hex
  refine ⟨l, hl, fun sp hsp => ?_⟩
  obtain ⟨p1, p2, p3, p4, _, _⟩ := hprops sp hsp
  exact ⟨p1, p2, p3, p4⟩

/-- Witness for C6 (amended) at a concrete input. -/
theorem C6_bounds_after_correction_witness :
    ∃ l, fix_borders is_char_ascii [((2 : Int), 3, "X")] "ab cd".toList = some l ∧
      ∀ sp ∈ l, 0 ≤ sp.1 ∧ sp.1 ≤ (("ab cd".toList).length : Int) ∧
        0 ≤ sp.2.1 ∧ sp.2.1 ≤ (("ab cd".toList).length : Int) :=
  C6_bounds_after_correction is_char_ascii "ab cd".toList [((2 : Int), 3, "X")]
    is_char_ascii_not_ws (by decide) ⟨'a', by decide, by decide⟩

/-! ### Claim C7 -/

/-- C7 (counterexample): the record with text `"ab cd"` and the malformed
span `(2,2)` (`start >= end`) is not failed with an error: `fix_borders`
returns successfully, silently relocating the offsets to `(3,2)`. -/
theorem C7_cex_malformed_not_rejected :
    ¬((2 : Int) < (2 : Int)) ∧
    fix_borders is_char_ascii [((2 : Int), 2, "X")] "ab cd".toList =
      some [((3 : Int), (2 : Int), "X")] :=
  ⟨by decide, by decide⟩

/-- C7 (amended): the program performs no malformed-span validation at all.
For every text containing a word character and every span list — spans out
of bounds or with `start >= end` included — `fix_borders` returns
successfully; the offsets are relocated by the border search like any
others (no error is raised, and no clamping occurs either). -/
theorem C7_no_malformed_rejection (wc : Char → Bool) (text : List Char)
    (ents : List Ent) (hws : ∀ c, c.isWhitespace = true → wc c = false)
    (hdot : wc '.' = false) (hex : ∃ c ∈ text, wc c = true) :
    ∃ l, fix_borders wc ents text = some l := by
  obtain ⟨l, hl, _⟩ := fix_borders_ok wc text ents hws hdot hex
  exact ⟨l, hl⟩

/-- Witness for C7 (amended) at a concrete malformed input: span `(7,0)` on
`"ab"` (out of bounds and inverted). -/
theorem C7_no_malformed_rejection_witness :
    ∃ l, fix_borders is_char_ascii [((7 : Int), 0, "Z")] "ab".toList = some l :=
  C7_no_malformed_rejection is_char_ascii "ab".toList [((7 : Int), 0, "Z")]
    is_char_ascii_not_ws (by decide) ⟨'a', by decide, by decide⟩

/-! ### Claim C2 -/

/-- Decomposition of a successful `valid_border` test. -/
theorem valid_border_elim (wc : Char → Bool) (text : List Char) (i : Int)
    (m : Bool) (hv : valid_border wc text i m = true) :
    0 ≤ i ∧ i + 1 < ((' ' :: text ++ [' ']).length : Int) ∧
      is_border wc m (cAt (' ' :: text ++ [' ']) i)
        (cAt (' ' :: text ++ [' ']) (i + 1)) = true := by
  unfold valid_border at hv
  simp only [Bool.and_eq_true, decide_eq_true_eq] at hv
  exact ⟨hv.1.1, hv.1.2, hv.2⟩

/-- If the index is already exactly at a valid border, the very first probe
(radius 0) succeeds. -/
theorem search_loop_radius_zero (wc : Char → Bool) (m : Bool) (text : List Char)
    (i : Int) (fuel : Nat) (hv : valid_border wc text i m = true) :
    search_loop wc m (' ' :: text ++ [' ']) (fuel + 1) (i + 1)
      (if m then -1 else 1) = some (i + 1) := by
  obtain ⟨h1, h2, h3⟩ := valid_border_elim wc text i m hv
  have hp : probe_ok wc m (' ' :: text ++ [' ']) (i + 1) := by
    refine ⟨by omega, h2, ?_⟩
    rw [show i + 1 - 1 = i from by ring]
    exact h3
  rw [search_loop_succ, if_pos hp]

/-- If the index is already exactly at a valid border and the
abbreviation-period override does not fire there, `fix_char_index` returns
the index unchanged. -/
theorem fix_char_index_radius_zero (wc : Char → Bool) (m : Bool) (text : List Char)
    (i : Int) (fuel : Nat) (hf : 1 ≤ fuel)
    (hv : valid_border wc text i m = true)
    (hnf : ¬ period_override_fires text (i + 1)) :
    fix_char_index wc fuel text i m = some i := by
  obtain ⟨n, rfl⟩ : ∃ n, fuel = n + 1 := ⟨fuel - 1, by omega⟩
  rw [fix_char_index_of_loop wc (n + 1) text i m (i + 1)
    (search_loop_radius_zero wc m text i n hv)]
  rw [if_neg (by unfold period_override_fires at hnf; exact hnf)]
  congr 1
  omega

/-- C2 (counterexample): two already-correctly-bounded inputs that the code
changes.  On `"a.b"` the index 1 is a valid end border (between `'a'` and
`'.'`), yet `fix_char_index` returns 2 — the abbreviation-period override
advances past the period because it is not sentence-final — so the span
`(0,1)` becomes `(0,2)`.  On `"a (b) c"` the span `(3,7)` has both borders
valid, yet the parenthesis repair extends it to `(2,7)`. -/
theorem C2_cex_bounded_span_changed :
    (valid_border is_char_ascii "a.b".toList 0 true = true ∧
      valid_border is_char_ascii "a.b".toList 1 false = true ∧
      fix_char_index is_char_ascii (fci_fuel "a.b".toList 1) "a.b".toList 1 false =
        some 2 ∧
      fix_borders is_char_ascii [((0 : Int), 1, "X")] "a.b".toList =
        some [((0 : Int), (2 : Int), "X")]) ∧
    (valid_border is_char_ascii "a (b) c".toList 3 true = true ∧
      valid_border is_char_ascii "a (b) c".toList 7 false = true ∧
      fix_borders is_char_ascii [((3 : Int), 7, "Y")] "a (b) c".toList =
        some [((2 : Int), (7 : Int), "Y")]) := by
  constructor
  · exact ⟨by decide, by decide, by decide, by decide⟩
  · exact ⟨by decide, by decide, by decide⟩

/-- C2 (amended): a span whose start and end are already exactly at valid
borders is returned unchanged by `fix_borders` provided that, additionally,
the abbreviation-period override does not fire at the end border and the
parenthesis repair does not extend the span; in particular `fix_char_index`
returns each such index unchanged (in start mode the override can never
fire, the border character being a word character). -/
theorem C2_already_bounded_unchanged (wc : Char → Bool) (text : List Char)
    (s e : Int) (lab : String)
    (hws : ∀ c, c.isWhitespace = true → wc c = false) (hdot : wc '.' = false)
    (hvs : valid_border wc text s true = true)
    (hve : valid_border wc text e false = true)
    (hnf : ¬ period_override_fires text (e + 1))
    (hpar : fix_parenthesis text (s, e, lab) = (s, e, lab)) :
    fix_char_index wc (fci_fuel text s) text s true = some s ∧
    fix_char_index wc (fci_fuel text e) text e false = some e ∧
    fix_borders wc [(s, e, lab)] text = some [(s, e, lab)] := by
  have h0 : wc ' ' = false := hws ' ' (by decide)
  obtain ⟨hs0, hsl, hsb⟩ := valid_border_elim wc text s true hvs
  obtain ⟨he0, hel, heb⟩ := valid_border_elim wc text e false hve
  rw [padded_length_int] at hsl hel
  have hsb2 : (!wc (cAt (' ' :: text ++ [' ']) s) &&
      wc (cAt (' ' :: text ++ [' ']) (s + 1))) = true := hsb
  rw [Bool.and_eq_true] at hsb2
  have heb2 : (wc (cAt (' ' :: text ++ [' ']) e) &&
      !wc (cAt (' ' :: text ++ [' ']) (e + 1))) = true := heb
  rw [Bool.and_eq_true] at heb2
  have hsw : wc (cAt (' ' :: text ++ [' ']) (s + 1)) = true := hsb2.2
  have hew : wc (cAt (' ' :: text ++ [' ']) e) = true := heb2.1
  have hnfs : ¬ period_override_fires text (s + 1) := by
    rintro ⟨hdotc, _⟩
    rw [hdotc, hdot] at hsw
    cases hsw
  have hcs := fix_char_index_radius_zero wc true text s (fci_fuel text s)
    (by unfold fci_fuel; omega) hvs hnfs
  have hce := fix_char_index_radius_zero wc false text e (fci_fuel text e)
    (by unfold fci_fuel; omega) hve hnf
  refine ⟨hcs, hce, ?_⟩
  have hsltext : s + 1 ≤ (text.length : Int) := by
    by_contra hgt
    have heq : s + 1 = (text.length : Int) + 1 := by omega
    rw [heq, cAt_padded_top, h0] at hsw
    cases hsw
  have he1 : 1 ≤ e := by
    by_contra hlt
    have heq : e = 0 := by omega
    rw [heq, cAt_padded_zero, h0] at hew
    cases hew
  have heltext : e ≤ (text.length : Int) := by omega
  have hone := fix_borders_one_eq wc text (s, e, lab) s e hcs hce
  rw [hpar] at hone
  have hedge1 : starts_with_space (py_slice text (s, e, lab).1 (s, e, lab).2.1) = false := by
    show starts_with_space (py_slice text s e) = false
    by_cases hab : s < e
    · rw [show starts_with_space (py_slice text s e) =
          starts_with_space (py_slice text s e) from rfl]
      apply starts_with_space_false
      intro c hc
      rw [py_slice_head text s e hs0 hab heltext] at hc
      injection hc with hc
      rw [← hc]
      have hinner := cAt_padded_inner text (s + 1) (by omega) hsltext
      rw [show s + 1 - 1 = s from by ring] at hinner
      rw [← hinner]
      intro hsp
      rw [hsp, h0] at hsw
      cases hsw
    · rw [py_slice_nil text s e (by omega) (by omega)]
      rfl
  have hedge2 : ends_with_space (py_slice text (s, e, lab).1 (s, e, lab).2.1) = false := by
    show ends_with_space (py_slice text s e) = false
    by_cases hab : s < e
    · apply ends_with_space_false
      intro c hc
      rw [py_slice_getLast text s e hs0 hab heltext] at hc
      injection hc with hc
      rw [← hc]
      have hinner := cAt_padded_inner text e (by omega) heltext
      rw [← hinner]
      intro hsp
      rw [hsp, h0] at hew
      cases hew
    · rw [py_slice_nil text s e (by omega) (by omega)]
      rfl
  rw [hedge1, hedge2] at hone
  show map_opt (fix_borders_one wc text) [(s, e, lab)] = some [(s, e, lab)]
  unfold map_opt
  rw [show fix_borders_one wc text (s, e, lab) = some (s, e, lab) from hone]
  rfl

/-- Witness for C2 (amended) at a concrete input: text `"ab"`, span
`(0, 2, "X")`. -/
theorem C2_already_bounded_unchanged_witness :
    fix_char_index is_char_ascii (fci_fuel "ab".toList 0) "ab".toList 0 true =
      some 0 ∧
    fix_char_index is_char_ascii (fci_fuel "ab".toList 2) "ab".toList 2 false =
      some 2 ∧
    fix_borders is_char_ascii [((0 : Int), 2, "X")] "ab".toList =
      some [((0 : Int), 2, "X")] :=
  C2_already_bounded_unchanged is_char_ascii "ab".toList 0 2 "X"
    is_char_ascii_not_ws (by decide) (by decide) (by decide) (by decide) (by decide)

/-! ### Deduplication: permutation and order lemmas -/

theorem insert_lt_perm (lt : α → α → Bool) (x : α) :
    ∀ l : List α, (insert_lt lt x l).Perm (x :: l) := by
  intro l
  induction l with
  | nil => exact List.Perm.refl _
  | cons y ys ih =>
    unfold insert_lt
    by_cases h : lt x y = true
    · rw [if_pos h]
    · rw [if_neg h]
      exact (List.Perm.cons y ih).trans (List.Perm.swap x y ys)

theorem foldl_insert_perm (lt : α → α → Bool) :
    ∀ (l acc : List α),
      (List.foldl (fun a y => insert_lt lt y a) acc l).Perm (l ++ acc) := by
  intro l
  induction l with
  | nil => intro acc; exact List.Perm.refl _
  | cons x xs ih =>
    intro acc
    show (List.foldl (fun a y => insert_lt lt y a) (insert_lt lt x acc) xs).Perm _
    exact (ih (insert_lt lt x acc)).trans
      ((List.Perm.append_left xs (insert_lt_perm lt x acc)).trans List.perm_middle)

theorem sort_lt_perm (lt : α → α → Bool) (l : List α) :
    (sort_lt lt l).Perm l := by
  unfold sort_lt
  have h := foldl_insert_perm lt l []
  rwa [List.append_nil] at h

theorem char_list_lt_irrefl : ∀ a : List Char, char_list_lt a a = false := by
  intro a
  induction a with
  | nil => rfl
  | cons x xs ih =>
    unfold char_list_lt
    rw [if_neg (lt_irrefl x), if_neg (lt_irrefl x)]
    exact ih

theorem char_list_lt_asymm :
    ∀ a b : List Char, char_list_lt a b = true → char_list_lt b a = false := by
  intro a
  induction a with
  | nil =>
    intro b h
    cases b with
    | nil => cases h
    | cons y ys => rfl
  | cons x xs ih =>
    intro b h
    cases b with
    | nil => cases h
    | cons y ys =>
      unfold char_list_lt at h ⊢
      by_cases hxy : x < y
      · rw [if_neg (asymm hxy), if_pos hxy]
      · rw [if_neg hxy] at h
        by_cases hyx : y < x
        · rw [if_pos hyx] at h; cases h
        · rw [if_neg hyx] at h
          rw [if_neg hyx, if_neg hxy]
          exact ih ys h

theorem char_list_lt_trans :
    ∀ a b c : List Char, char_list_lt a b = true → char_list_lt b c = true →
      char_list_lt a c = true := by
  intro a
  induction a with
  | nil =>
    intro b c hab hbc
    cases c with
    | nil =>
      cases b with
      | nil => cases hab
      | cons y ys => cases hbc
    | cons z zs => rfl
  | cons x xs ih =>
    intro b c hab hbc
    cases b with
    | nil => cases hab
    | cons y ys =>
      cases c with
      | nil => cases hbc
      | cons z zs =>
        unfold char_list_lt at hab hbc ⊢
        by_cases h1 : x < y
        · by_cases h2 : y < z
          · rw [if_pos (lt_trans h1 h2)]
          · rw [if_neg h2] at hbc
            by_cases h3 : z < y
            · rw [if_pos h3] at hbc; cases hbc
            · have hyz : y = z := le_antisymm (le_of_not_lt h3) (le_of_not_lt h2)
              rw [← hyz]
              rw [if_pos h1]
        · rw [if_neg h1] at hab
          by_cases h1x : y < x
          · rw [if_pos h1x] at hab; cases hab
          · rw [if_neg h1x] at hab
            have hxy : x = y := le_antisymm (le_of_not_lt h1x) (le_of_not_lt h1)
            subst hxy
            by_cases h2 : x < z
            · rw [if_pos h2]
            · rw [if_neg h2] at hbc ⊢
              by_cases h3 : z < x
              · rw [if_pos h3] at hbc; cases hbc
              · rw [if_neg h3] at hbc ⊢
                exact ih ys zs hab hbc

theorem char_list_lt_conn :
    ∀ a b : List Char, char_list_lt a b = false → char_list_lt b a = false →
      a = b := by
  intro a
  induction a with
  | nil =>
    intro b h1 h2
    cases b with
    | nil => rfl
    | cons y ys => cases h1
  | cons x xs ih =>
    intro b h1 h2
    cases b with
    | nil => cases h2
    | cons y ys =>
      unfold char_list_lt at h1 h2
      by_cases hxy : x < y
      · rw [if_pos hxy] at h1; cases h1
      · by_cases hyx : y < x
        · rw [if_pos hyx] at h2; cases h2
        · rw [if_neg hxy, if_neg hyx] at h1
          rw [if_neg hyx, if_neg hxy] at h2
          have hx : x = y := le_antisymm (le_of_not_lt hyx) (le_of_not_lt hxy)
          rw [hx, ih ys h1 h2]

theorem pairwise_trivial (l : List α) : l.Pairwise (fun _ _ => True) := by
  induction l with
  | nil => exact List.Pairwise.nil
  | cons x xs ih => exact List.Pairwise.cons (fun _ _ => trivial) ih

/-- Inserting behind ties keeps the stable-sort order: if `acc` is ordered
by `sorted_rel lt S` and every element of `acc` precedes `x` in the previous
order `S`, so is `insert_lt lt x acc`. -/
theorem insert_lt_stable (lt : α → α → Bool)
    (htrans : ∀ a b c, lt a b = true → lt b c = true → lt a c = true)
    (hright : ∀ a b c, lt a b = true → lt b c = false → lt c b = false →
      lt a c = true)
    (S : α → α → Prop) (x : α) :
    ∀ acc : List α, acc.Pairwise (sorted_rel lt S) → (∀ z ∈ acc, S z x) →
      (insert_lt lt x acc).Pairwise (sorted_rel lt S) := by
  intro acc
  induction acc with
  | nil =>
    intro _ _
    exact List.Pairwise.cons (by intro z hz; cases hz) List.Pairwise.nil
  | cons y ys ih =>
    intro hp hS
    rcases hp with _ | ⟨hy, hys⟩
    unfold insert_lt
    by_cases hxy : lt x y = true
    · rw [if_pos hxy]
      refine List.Pairwise.cons ?_ (List.Pairwise.cons hy hys)
      intro z hz
      rcases List.mem_cons.mp hz with rfl | hz
      · exact Or.inl hxy
      · rcases hy z hz with h | ⟨h1, h2, _⟩
        · exact Or.inl (htrans x y z hxy h)
        · exact Or.inl (hright x y z hxy h1 h2)
    · rw [if_neg hxy]
      have hxy2 : lt x y = false := by
        revert hxy
        cases lt x y <;> simp
      refine List.Pairwise.cons ?_
        (ih hys (fun z hz => hS z (List.mem_cons_of_mem y hz)))
      intro z hz
      have hmem : z ∈ x :: ys := (insert_lt_perm lt x ys).mem_iff.mp hz
      rcases List.mem_cons.mp hmem with rfl | hz2
      · by_cases hyx : lt y z = true
        · exact Or.inl hyx
        · have hyx2 : lt y z = false := by
            revert hyx
            cases lt y z <;> simp
          exact Or.inr ⟨hyx2, hxy2, hS y (List.mem_cons_self y ys)⟩
      · exact hy z hz2

theorem foldl_insert_stable (lt : α → α → Bool)
    (htrans : ∀ a b c, lt a b = true → lt b c = true → lt a c = true)
    (hright : ∀ a b c, lt a b = true → lt b c = false → lt c b = false →
      lt a c = true)
    (S : α → α → Prop) :
    ∀ (l acc : List α), acc.Pairwise (sorted_rel lt S) →
      (∀ z ∈ acc, ∀ y ∈ l, S z y) → l.Pairwise S →
      (List.foldl (fun a y => insert_lt lt y a) acc l).Pairwise (sorted_rel lt S) := by
  intro l
  induction l with
  | nil => intro acc hacc _ _; exact hacc
  | cons x xs ih =>
    intro acc hacc hcross hl
    rcases hl with _ | ⟨hx, hxs⟩
    show (List.foldl (fun a y => insert_lt lt y a) (insert_lt lt x acc) xs).Pairwise _
    apply ih
    · exact insert_lt_stable lt htrans hright S x acc hacc
        (fun z hz => hcross z hz x (List.mem_cons_self x xs))
    · intro z hz y hy
      have hmem : z ∈ x :: acc := (insert_lt_perm lt x acc).mem_iff.mp hz
      rcases List.mem_cons.mp hmem with rfl | hz2
      · exact hx y hy
      · exact hcross z hz2 y (List.mem_cons_of_mem x hy)
    · exact hxs

theorem sort_lt_stable (lt : α → α → Bool)
    (htrans : ∀ a b c, lt a b = true → lt b c = true → lt a c = true)
    (hright : ∀ a b c, lt a b = true → lt b c = false → lt c b = false →
      lt a c = true)
    (S : α → α → Prop) (l : List α) (hl : l.Pairwise S) :
    (sort_lt lt l).Pairwise (sorted_rel lt S) :=
  foldl_insert_stable lt htrans hright S l [] List.Pairwise.nil
    (by intro z hz; cases hz) hl

theorem start_lt_trans : ∀ a b c : Ent, start_lt a b = true → start_lt b c = true →
    start_lt a c = true := by
  intro a b c h1 h2
  simp only [start_lt, decide_eq_true_eq] at h1 h2 ⊢
  omega

theorem start_lt_right : ∀ a b c : Ent, start_lt a b = true → start_lt b c = false →
    start_lt c b = false → start_lt a c = true := by
  intro a b c h1 h2 h3
  simp only [start_lt, decide_eq_true_eq, decide_eq_false_iff_not] at h1 h2 h3 ⊢
  omega

theorem end_lt_trans : ∀ a b c : Ent, end_lt a b = true → end_lt b c = true →
    end_lt a c = true := by
  intro a b c h1 h2
  simp only [end_lt, decide_eq_true_eq] at h1 h2 ⊢
  omega

theorem end_lt_right : ∀ a b c : Ent, end_lt a b = true → end_lt b c = false →
    end_lt c b = false → end_lt a c = true := by
  intro a b c h1 h2 h3
  simp only [end_lt, decide_eq_true_eq, decide_eq_false_iff_not] at h1 h2 h3 ⊢
  omega

theorem label_lt_trans : ∀ a b c : Ent, label_lt a b = true → label_lt b c = true →
    label_lt a c = true := by
  intro a b c h1 h2
  exact char_list_lt_trans _ _ _ h1 h2

theorem label_lt_right : ∀ a b c : Ent, label_lt a b = true → label_lt b c = false →
    label_lt c b = false → label_lt a c = true := by
  intro a b c h1 h2 h3
  have hbc : b.2.2.data = c.2.2.data := char_list_lt_conn _ _ h2 h3
  unfold label_lt at h1 ⊢
  rw [← hbc]
  exact h1

/-- The three stable sorts of `deduplicate` produce the lexicographic span
order (start, then end, then label). -/
theorem deduplicate_pairwise (l : List Ent) : (deduplicate l).Pairwise lex_le := by
  unfold deduplicate
  have h1 := sort_lt_stable label_lt label_lt_trans label_lt_right _ _
    (pairwise_trivial l.dedup)
  have h2 := sort_lt_stable end_lt end_lt_trans end_lt_right _ _ h1
  have h3 := sort_lt_stable start_lt start_lt_trans start_lt_right _ _ h2
  refine h3.imp ?_
  intro a b hab
  rcases hab with h | ⟨hs1, hs2, hab⟩
  · exact Or.inl (by simpa [start_lt, decide_eq_true_eq] using h)
  · refine Or.inr ⟨?_, ?_⟩
    · simp only [start_lt, decide_eq_false_iff_not] at hs1 hs2
      omega
    · rcases hab with h | ⟨he1, he2, hab⟩
      · exact Or.inl (by simpa [end_lt, decide_eq_true_eq] using h)
      · refine Or.inr ⟨?_, ?_⟩
        · simp only [end_lt, decide_eq_false_iff_not] at he1 he2
          omega
        · rcases hab with h | ⟨hl1, hl2, _⟩
          · exact Or.inl h
          · exact Or.inr (String.ext (char_list_lt_conn _ _ hl1 hl2))

theorem deduplicate_perm_dedup (l : List Ent) : (deduplicate l).Perm l.dedup := by
  unfold deduplicate
  exact (sort_lt_perm start_lt _).trans
    ((sort_lt_perm end_lt _).trans (sort_lt_perm label_lt _))

theorem deduplicate_nodup (l : List Ent) : (deduplicate l).Nodup :=
  (deduplicate_perm_dedup l).symm.nodup (List.nodup_dedup l)

theorem mem_deduplicate (l : List Ent) (x : Ent) : x ∈ deduplicate l ↔ x ∈ l := by
  rw [(deduplicate_perm_dedup l).mem_iff, List.mem_dedup]

theorem lex_le_antisymm (x y : Ent) (h1 : lex_le x y) (h2 : lex_le y x) : x = y := by
  obtain ⟨x1, x2, x3⟩ := x
  obtain ⟨y1, y2, y3⟩ := y
  unfold lex_le at h1 h2
  dsimp only at h1 h2
  have e1 : x1 = y1 := by
    rcases h1 with h1 | ⟨e1, _⟩
    · rcases h2 with h2 | ⟨e2, _⟩
      · omega
      · omega
    · exact e1
  subst e1
  have hx1 : ¬ (x1 < x1) := by omega
  rcases h1 with h1 | ⟨_, h1⟩
  · exact absurd h1 hx1
  rcases h2 with h2 | ⟨_, h2⟩
  · exact absurd h2 hx1
  have e2 : x2 = y2 := by
    rcases h1 with h1 | ⟨e2, _⟩
    · rcases h2 with h2 | ⟨e2, _⟩
      · omega
      · omega
    · exact e2
  subst e2
  have hx2 : ¬ (x2 < x2) := by omega
  rcases h1 with h1 | ⟨_, h1⟩
  · exact absurd h1 hx2
  rcases h2 with h2 | ⟨_, h2⟩
  · exact absurd h2 hx2
  have e3 : x3 = y3 := by
    rcases h1 with h1 | h1
    · rcases h2 with h2 | h2
      · have hf := char_list_lt_asymm _ _ h1
        rw [hf] at h2
        cases h2
      · exact h2.symm
    · exact h1
  rw [e3]

/-- A list is determined by being duplicate-free, sorted by `lex_le`, and by
its membership: the canonical enumeration of a finite set of spans. -/
theorem sorted_nodup_unique :
    ∀ (l1 l2 : List Ent), l1.Pairwise lex_le → l2.Pairwise lex_le →
      l1.Nodup → l2.Nodup → (∀ x, x ∈ l1 ↔ x ∈ l2) → l1 = l2 := by
  intro l1
  induction l1 with
  | nil =>
    intro l2 _ _ _ _ hmem
    cases l2 with
    | nil => rfl
    | cons b bs => exact absurd ((hmem b).mpr (List.mem_cons_self b bs)) (by simp)
  | cons a as ih =>
    intro l2 hp1 hp2 hn1 hn2 hmem
    cases l2 with
    | nil => exact absurd ((hmem a).mp (List.mem_cons_self a as)) (by simp)
    | cons b bs =>
      rcases hp1 with _ | ⟨ha, has⟩
      rcases hp2 with _ | ⟨hb, hbs⟩
      rcases List.nodup_cons.mp hn1 with ⟨hna, hnas⟩
      rcases List.nodup_cons.mp hn2 with ⟨hnb, hnbs⟩
      have hab : a = b := by
        by_contra hne
        rcases List.mem_cons.mp ((hmem a).mp (List.mem_cons_self a as)) with h | h
        · exact hne h
        rcases List.mem_cons.mp ((hmem b).mpr (List.mem_cons_self b bs)) with h2 | h2
        · exact hne h2.symm
        exact hne (lex_le_antisymm a b (ha b h2) (hb a h))
      subst hab
      have htails : ∀ x, x ∈ as ↔ x ∈ bs := by
        intro x
        constructor
        · intro hx
          rcases List.mem_cons.mp ((hmem x).mp (List.mem_cons_of_mem a hx)) with h | h
          · rw [h] at hx
            exact absurd hx hna
          · exact h
        · intro hx
          rcases List.mem_cons.mp ((hmem x).mpr (List.mem_cons_of_mem a hx)) with h | h
          · rw [h] at hx
            exact absurd hx hnb
          · exact h
      rw [ih bs has hbs hnas hnbs htails]

/-! ### Claim C8 -/

/-- C8: `deduplicate` returns exactly the distinct spans of its input —
duplicate-free with unchanged membership — arranged in the deterministic
lexicographic order: start ascending, then end ascending, then label
ascending (the three successive stable sorts by label, end, start make start
dominate); and the claim's two examples evaluate as stated.  By
`sorted_nodup_unique` the three properties determine the output uniquely. -/
theorem C8_deduplicate_canonical :
    (∀ l : List Ent, (deduplicate l).Nodup ∧ (∀ x, x ∈ deduplicate l ↔ x ∈ l) ∧
      (deduplicate l).Pairwise lex_le) ∧
    deduplicate [((5 : Int), 8, "B"), ((0 : Int), 3, "A")] =
      [((0 : Int), 3, "A"), ((5 : Int), 8, "B")] ∧
    deduplicate [((0 : Int), 3, "A"), ((0 : Int), 3, "A")] = [((0 : Int), 3, "A")] := by
  refine ⟨fun l => ⟨deduplicate_nodup l, mem_deduplicate l, deduplicate_pairwise l⟩, ?_, ?_⟩
  · decide
  · decide

/-! ### Claim C9 -/

/-- Two span lists with the same members deduplicate to the same canonical
list. -/
theorem deduplicate_eq_of_mem_iff (x y : List Ent) (h : ∀ a, a ∈ x ↔ a ∈ y) :
    deduplicate x = deduplicate y :=
  sorted_nodup_unique _ _ (deduplicate_pairwise x) (deduplicate_pairwise y)
    (deduplicate_nodup x) (deduplicate_nodup y)
    (fun a => by rw [mem_deduplicate, mem_deduplicate]; exact h a)

/-- C9: the deduplicator is idempotent — `dedupe (dedupe x) = dedupe x` —
and order-normalizing: permuting the input does not change the output. -/
theorem C9_deduplicate_idempotent_normalizing :
    (∀ x : List Ent, deduplicate (deduplicate x) = deduplicate x) ∧
    (∀ x y : List Ent, x.Perm y → deduplicate x = deduplicate y) := by
  constructor
  · intro x
    exact deduplicate_eq_of_mem_iff _ _ (fun a => mem_deduplicate x a)
  · intro x y hp
    exact deduplicate_eq_of_mem_iff x y (fun a => hp.mem_iff)

/-! ### Claim C5 -/

/-- A label without a hyphen is left unchanged by the noise stripper. -/
theorem strip_no_hyphen (d : List Char) (h : ('-') ∉ d) :
    strip_label_chars d = d := by
  unfold strip_label_chars
  split
  · next rest heq =>
    exfalso
    apply h
    have hm : ('-') ∈ d.reverse.dropWhile Char.isDigit := by
      rw [heq]
      exact List.mem_cons_self _ _
    have hr := (List.dropWhile_sublist Char.isDigit).subset hm
    exact List.mem_reverse.mp hr
  · rfl

/-- On a label with at most one hyphen the noise stripper is idempotent:
after one strip the result holds no hyphen-digits suffix any more. -/
theorem strip_label_idem (d : List Char) (h : d.count '-' ≤ 1) :
    strip_label_chars (strip_label_chars d) = strip_label_chars d := by
  cases hm : d.reverse.dropWhile Char.isDigit with
  | nil =>
    have h1 : strip_label_chars d = d := by
      unfold strip_label_chars
      rw [hm]
    rw [h1]
    exact h1
  | cons c rest =>
    by_cases hc : c = '-'
    · subst hc
      have h1 : strip_label_chars d = rest.reverse := by
        unfold strip_label_chars
        rw [hm]
        rfl
      rw [h1]
      apply strip_no_hyphen
      intro hmem
      rw [List.mem_reverse] at hmem
      have hsub : (('-') :: rest).Sublist d.reverse := by
        rw [← hm]
        exact List.dropWhile_sublist Char.isDigit
      have hcount : (('-') :: rest).count '-' ≤ d.reverse.count '-' :=
        hsub.count_le '-'
      rw [List.count_reverse] at hcount
      rw [List.count_cons_self] at hcount
      have hpos : 0 < rest.count '-' := List.count_pos_iff.mpr hmem
      omega
    · have h1 : strip_label_chars d = d := by
        unfold strip_label_chars
        rw [hm]
        split
        · next rest2 heq =>
          rw [List.cons.injEq] at heq
          exact absurd heq.1 hc
        · rfl
      rw [h1]
      exact h1

/-- C5 (counterexample): the label `"A-1-2"` is stripped to `"A-1"` (the
regex removes only the last hyphen-digits suffix), and a second application
strips again to `"A"`, so `strip_noise (strip_noise x) ≠ strip_noise x`. -/
theorem C5_cex_double_suffix :
    remove_ner_noise [((0 : Int), 1, "A-1-2")] = [((0 : Int), 1, "A-1")] ∧
    remove_ner_noise (remove_ner_noise [((0 : Int), 1, "A-1-2")]) =
      [((0 : Int), 1, "A")] ∧
    remove_ner_noise (remove_ner_noise [((0 : Int), 1, "A-1-2")]) ≠
      remove_ner_noise [((0 : Int), 1, "A-1-2")] :=
  ⟨by decide, by decide, by decide⟩

/-- C5 (amended): the noise stripper is idempotent on span lists whose
labels contain at most one hyphen (as all well-formed `"TAG-123"` noise
does); a second application then changes nothing. -/
theorem C5_strip_noise_idem_single_hyphen (l : List Ent)
    (h : ∀ e ∈ l, e.2.2.data.count '-' ≤ 1) :
    remove_ner_noise (remove_ner_noise l) = remove_ner_noise l := by
  unfold remove_ner_noise
  rw [List.map_map]
  apply List.map_congr_left
  intro e he
  show (e.1, e.2.1, String.mk (strip_label_chars
    (String.mk (strip_label_chars e.2.2.data)).data)) = _
  have hdata : (String.mk (strip_label_chars e.2.2.data)).data =
      strip_label_chars e.2.2.data := rfl
  rw [hdata, strip_label_idem _ (h e he)]

/-- Witness for C5 (amended) at a concrete input: label `"PER-1337"`. -/
theorem C5_strip_noise_idem_single_hyphen_witness :
    remove_ner_noise (remove_ner_noise [((0 : Int), 1, "PER-1337")]) =
      remove_ner_noise [((0 : Int), 1, "PER-1337")] :=
  C5_strip_noise_idem_single_hyphen [((0 : Int), 1, "PER-1337")] (by decide)

end Clean